import Mathlib

/-!
Verification of the fsdb Delta-Lake-style storage engine and its NFS bridge.

The NFS server model is a shallow embedding of `src/fsdb/src/nfs/server.rs`.
The transactional-engine definitions (commit protocol, replay, data skipping,
merge, optimize, vacuum) are modelled from the specification, because the
repository sources under `src/` contain only the module declarations
(`src/fsdb/src/delta_lake/mod.rs`) re-exporting those functions, not their
bodies.
-/

namespace Fsdb

/-! ## NFS server model (from src/fsdb/src/nfs/server.rs) -/

namespace Nfs

/-- NFSv3 status codes returned by the fsdb NFS handlers (subset of nfsstat3). -/
inductive NfsErr where
  | ioErr
  | noent
  | notsupp
  | rofs
  | notdir
  | isdir
  deriving DecidableEq, Repr

/-- A database mutation invoked by an NFS handler (call into DatabaseOps or
the CSV file view). -/
inductive DbCall where
  | deleteRowsWhere (pred : String)
  | applyWrite
  deriving DecidableEq, Repr

/-- File id constants from server.rs lines 19-23. -/
def ROOT_ID : Nat := 1

/-- The id of the `data` directory. -/
def DATA_DIR_ID : Nat := 2

/-- The id of the virtual `data.csv` file. -/
def DATA_CSV_ID : Nat := 3

/-- First id used for parquet files. -/
def PARQUET_FILE_ID_START : Nat := 100

/-- The `remove` handler (server.rs lines 409-437).  `deleteOk` models the
result of the `db.delete_rows_where("1=1")` call.  The second component is the
trace of database mutations the handler invoked. -/
def remove (dirid : Nat) (filename : String) (deleteOk : Bool) :
    Except NfsErr Unit × List DbCall :=
  if dirid = DATA_DIR_ID ∧ filename = "data.csv" then
    if deleteOk then (Except.ok (), [DbCall.deleteRowsWhere "1=1"])
    else (Except.error NfsErr.ioErr, [DbCall.deleteRowsWhere "1=1"])
  else
    (Except.error NfsErr.notsupp, [])

/-- Side effects of the `write` handler: database mutations invoked, whether
the content cache was updated, whether the attribute cache was updated. -/
structure WriteEffects where
  dbCalls : List DbCall
  contentCacheUpdated : Bool
  attrCacheUpdated : Bool
  deriving DecidableEq, Repr

/-- The `write` handler (server.rs lines 335-395).  `cacheEnabled` models
whether the two-tier cache is configured, `applyOk` the result of
`view.apply_write`, `genOk` the result of `view.generate_csv` on the cache
refresh path. -/
def write (id : Nat) (cacheEnabled applyOk genOk : Bool) :
    Except NfsErr Unit × WriteEffects :=
  if id = DATA_CSV_ID then
    if applyOk = false then
      (Except.error NfsErr.ioErr, ⟨[DbCall.applyWrite], false, false⟩)
    else if cacheEnabled ∧ genOk = false then
      (Except.error NfsErr.ioErr, ⟨[DbCall.applyWrite], false, false⟩)
    else
      (Except.ok (), ⟨[DbCall.applyWrite], cacheEnabled, true⟩)
  else
    (Except.error NfsErr.rofs, ⟨[], false, false⟩)

/-- One directory entry returned by `readdir`. -/
structure DirEntry where
  fileid : Nat
  name : String
  deriving DecidableEq, Repr

/-- Result of `readdir`: the entries and the `end` flag. -/
structure ReadDirRes where
  entries : List DirEntry
  dirEnd : Bool
  deriving DecidableEq, Repr

/-- The `readdir` handler (server.rs lines 443-511).  `parquetFiles` models
the `parquet_files` map in its iteration order.  In the data directory the
`data.csv` entry is pushed whenever `start_after < DATA_CSV_ID`, with no check
against `max_entries`; parquet entries are appended only while
`entries.len() < max_entries`; the result always carries `end = true`. -/
def readdir (parquetFiles : List (Nat × String))
    (dirid startAfter maxEntries : Nat) : Except NfsErr ReadDirRes :=
  if dirid = ROOT_ID then
    Except.ok ⟨if startAfter < DATA_DIR_ID then [⟨DATA_DIR_ID, "data"⟩] else [], true⟩
  else if dirid = DATA_DIR_ID then
    let base : List DirEntry :=
      if startAfter < DATA_CSV_ID then [⟨DATA_CSV_ID, "data.csv"⟩] else []
    let entries := parquetFiles.foldl
      (fun acc p =>
        if startAfter < p.1 ∧ acc.length < maxEntries then acc ++ [⟨p.1, p.2⟩]
        else acc)
      base
    Except.ok ⟨entries, true⟩
  else
    Except.error NfsErr.notdir

end Nfs

end Fsdb

namespace Fsdb

/-! ## Theorems for the NFS handlers -/

/-- C8: the NFS remove handler routes to the row-mutation path.  If the
directory is the data directory (id 2) and the file is `data.csv`, the handler
invokes `delete_rows_where "1=1"` and returns Ok exactly when that call
succeeds (`NFS3ERR_IO` otherwise); every other `(dirid, filename)` pair yields
`NFS3ERR_NOTSUPP` with no database mutation invoked. -/
theorem nfs_remove_routes_to_row_mutation (dirid : Nat) (filename : String)
    (deleteOk : Bool) :
    (dirid = Nfs.DATA_DIR_ID ∧ filename = "data.csv" →
      Nfs.remove dirid filename deleteOk =
        ((if deleteOk then Except.ok () else Except.error Nfs.NfsErr.ioErr),
         [Nfs.DbCall.deleteRowsWhere "1=1"])) ∧
    (¬ (dirid = Nfs.DATA_DIR_ID ∧ filename = "data.csv") →
      Nfs.remove dirid filename deleteOk = (Except.error Nfs.NfsErr.notsupp, [])) := by
  constructor
  · intro h
    simp [Nfs.remove, h]
    cases deleteOk <;> simp
  · intro h
    simp [Nfs.remove, h]

/-- Witness for C8 at concrete inputs. -/
theorem nfs_remove_routes_to_row_mutation_witness :
    Nfs.remove 2 "data.csv" true =
      (Except.ok (), [Nfs.DbCall.deleteRowsWhere "1=1"]) ∧
    Nfs.remove 1 "data.csv" true = (Except.error Nfs.NfsErr.notsupp, []) :=
  ⟨(nfs_remove_routes_to_row_mutation 2 "data.csv" true).1 ⟨rfl, rfl⟩,
   (nfs_remove_routes_to_row_mutation 1 "data.csv" true).2 (by decide)⟩

/-- C9: the NFS write handler is restricted to the CSV view.  For every id
other than `DATA_CSV_ID = 3` — the root directory, the data directory, and
every parquet id — it returns `NFS3ERR_ROFS`, invokes no database mutation and
updates no cache; only id 3 produces an `apply_write` call. -/
theorem nfs_write_restricted_to_csv (id : Nat)
    (cacheEnabled applyOk genOk : Bool) :
    (id ≠ Nfs.DATA_CSV_ID →
      Nfs.write id cacheEnabled applyOk genOk =
        (Except.error Nfs.NfsErr.rofs, ⟨[], false, false⟩)) ∧
    ((Nfs.write id cacheEnabled applyOk genOk).2.dbCalls ≠ [] →
      id = Nfs.DATA_CSV_ID) := by
  constructor
  · intro h
    simp [Nfs.write, h]
  · intro h
    by_contra hne
    simp [Nfs.write, hne] at h

/-- Witness for C9 at concrete inputs. -/
theorem nfs_write_restricted_to_csv_witness :
    Nfs.write 100 true true true =
      (Except.error Nfs.NfsErr.rofs, ⟨[], false, false⟩) :=
  (nfs_write_restricted_to_csv 100 true true true).1 (by decide)

/-- C10: every successful `readdir` reports `end = true`, even when parquet
entries were truncated by `max_entries` or when `data.csv` was pushed without
being counted against `max_entries`: the concrete conjuncts show a listing
that exceeds `max_entries` (one entry returned with `max_entries = 0`) and a
listing that silently drops a parquet entry, both still claiming the stream is
finished. -/
theorem nfs_readdir_always_reports_end
    (parquetFiles : List (Nat × String)) (dirid startAfter maxEntries : Nat)
    (r : Nfs.ReadDirRes)
    (h : Nfs.readdir parquetFiles dirid startAfter maxEntries = Except.ok r) :
    r.dirEnd = true ∧
    Nfs.readdir [(100, "part-0.parquet")] 2 0 0 =
      Except.ok ⟨[⟨3, "data.csv"⟩], true⟩ ∧
    Nfs.readdir [(100, "part-0.parquet"), (101, "part-1.parquet")] 2 0 2 =
      Except.ok ⟨[⟨3, "data.csv"⟩, ⟨100, "part-0.parquet"⟩], true⟩ := by
  refine ⟨?_, by rfl, by rfl⟩
  unfold Nfs.readdir at h
  split at h
  · cases h
    rfl
  · split at h
    · cases h
      rfl
    · cases h

/-- Witness for C10 at concrete inputs. -/
theorem nfs_readdir_always_reports_end_witness :
    (Nfs.readdir [] 1 0 10 = Except.ok ⟨[⟨2, "data"⟩], true⟩) ∧
    (⟨[⟨2, "data"⟩], true⟩ : Nfs.ReadDirRes).dirEnd = true :=
  ⟨by rfl,
   (nfs_readdir_always_reports_end [] 1 0 10 ⟨[⟨2, "data"⟩], true⟩ (by rfl)).1⟩

end Fsdb

namespace Fsdb

/-! ## Column statistics and data skipping

Modelled from the spec: the bodies of `src/fsdb/src/delta_lake/data_skipping.rs`
(`FileStats`, `can_skip_file`) are not present under `src/`; only the
re-export in `src/fsdb/src/delta_lake/mod.rs` line 12 is.  The definitions
below follow section 4.2 of the specification. -/

/-- A column comparison operator appearing in a predicate tree. -/
inductive CmpOp where
  | lt
  | le
  | gt
  | ge
  | eq
  deriving DecidableEq, Repr

/-- Modelled from the spec: a predicate tree of conjunctions and disjunctions
of column comparisons; `unsupported` stands for any predicate shape the
skipping logic does not recognize. -/
inductive Pred where
  | cmp (col : String) (op : CmpOp) (k : Int)
  | conj (l r : Pred)
  | disj (l r : Pred)
  | unsupported
  deriving DecidableEq, Repr

/-- Per-column statistics `{min, max, null_count}` of one file. -/
structure ColStats where
  min : Int
  max : Int
  nullCount : Nat
  deriving DecidableEq, Repr

/-- Per-file statistics: a map from column name to its statistics. -/
def FileStats : Type := List (String × ColStats)

/-- Look up the statistics recorded for a column. -/
def statsFor (stats : FileStats) (c : String) : Option ColStats :=
  (List.find? (fun p => p.1 = c) stats).map (fun p => p.2)

/-- Modelled from the spec: whether a single comparison `col op k` is provably
false for every value in `[min, max]` — e.g. `col > k` skips when `max ≤ k`. -/
def canSkipCmp (st : ColStats) (op : CmpOp) (k : Int) : Bool :=
  match op with
  | CmpOp.gt => st.max ≤ k
  | CmpOp.ge => st.max < k
  | CmpOp.lt => k ≤ st.min
  | CmpOp.le => k < st.min
  | CmpOp.eq => k < st.min ∨ st.max < k

/-- Modelled from the spec: `can_skip_file(stats, predicate)` — an `AND` skips
if any conjunct skips, an `OR` skips only if every disjunct skips, a
comparison on a column without recorded statistics and every unsupported
shape return false (cannot skip). -/
def can_skip_file (stats : FileStats) : Pred → Bool
  | Pred.cmp c op k =>
    match statsFor stats c with
    | some st => canSkipCmp st op k
    | none => false
  | Pred.conj l r => can_skip_file stats l || can_skip_file stats r
  | Pred.disj l r => can_skip_file stats l && can_skip_file stats r
  | Pred.unsupported => false

/-- Truth of a predicate on one row, a valuation of the columns.  An
unsupported shape is given the worst-case value `true`, so skip soundness
cannot lean on it. -/
def evalPred (row : String → Int) : Pred → Bool
  | Pred.cmp c op k =>
    match op with
    | CmpOp.lt => row c < k
    | CmpOp.le => row c ≤ k
    | CmpOp.gt => k < row c
    | CmpOp.ge => k ≤ row c
    | CmpOp.eq => row c = k
  | Pred.conj l r => evalPred row l && evalPred row r
  | Pred.disj l r => evalPred row l || evalPred row r
  | Pred.unsupported => true

/-- A row lies within the statistics bounds: each column with recorded
statistics takes a value between the recorded min and max. -/
def RowInBounds (stats : FileStats) (row : String → Int) : Prop :=
  ∀ c st, statsFor stats c = some st → st.min ≤ row c ∧ row c ≤ st.max

end Fsdb

namespace Fsdb

/-- Core soundness of data skipping, by induction on the predicate tree. -/
theorem skip_sound_core (stats : FileStats) (row : String → Int)
    (hb : RowInBounds stats row) :
    ∀ p : Pred, can_skip_file stats p = true → evalPred row p = false := by
  intro p
  induction p with
  | cmp c op k =>
    intro hs
    cases hst : statsFor stats c with
    | none => simp [can_skip_file, hst] at hs
    | some st =>
      simp only [can_skip_file, hst] at hs
      have hbc := hb c st hst
      cases op <;>
        simp only [canSkipCmp, decide_eq_true_eq] at hs <;>
        simp only [evalPred, decide_eq_false_iff_not] <;>
        omega
  | conj l r ihl ihr =>
    intro hs
    simp only [can_skip_file, Bool.or_eq_true] at hs
    cases hs with
    | inl h => simp [evalPred, ihl h]
    | inr h => simp [evalPred, ihr h]
  | disj l r ihl ihr =>
    intro hs
    simp only [can_skip_file, Bool.and_eq_true] at hs
    simp [evalPred, ihl hs.1, ihr hs.2]
  | unsupported => intro hs; simp [can_skip_file] at hs

/-- C1: data-skipping soundness.  If `can_skip_file stats p = true` then no
row whose column values lie within the recorded min/max bounds satisfies `p`;
moreover an AND node skips if any conjunct skips, an OR node skips only if
every disjunct skips, and the unsupported shape never skips. -/
theorem can_skip_file_sound (stats : FileStats) (p : Pred) (row : String → Int)
    (hb : RowInBounds stats row) (hs : can_skip_file stats p = true) :
    evalPred row p = false ∧
    (∀ l r, can_skip_file stats (Pred.conj l r) =
      (can_skip_file stats l || can_skip_file stats r)) ∧
    (∀ l r, can_skip_file stats (Pred.disj l r) =
      (can_skip_file stats l && can_skip_file stats r)) ∧
    can_skip_file stats Pred.unsupported = false :=
  ⟨skip_sound_core stats row hb p hs, fun _ _ => rfl, fun _ _ => rfl, rfl⟩

/-- Witness for C1: a file with `x ∈ [0, 5]` is skipped for `x > 10`, and the
in-bounds row `x = 3` indeed fails the predicate. -/
theorem can_skip_file_sound_witness :
    evalPred (fun _ => 3) (Pred.cmp "x" CmpOp.gt 10) = false :=
  (can_skip_file_sound [("x", ⟨0, 5, 0⟩)] (Pred.cmp "x" CmpOp.gt 10)
    (fun _ => 3)
    (by
      intro c st h
      by_cases hc : "x" = c
      · subst hc
        simp only [statsFor, List.find?] at h
        simp at h
        subst h
        constructor <;> norm_num
      · simp [statsFor, List.find?, hc] at h)
    (by rfl)).1

end Fsdb

namespace Fsdb

/-! ## Transaction log, replay and snapshots

Modelled from the spec: the transaction-log sources of this repository are not
under `src/` (sections 3 and 4.1 of the specification describe the action
variants, the commit record, the replay-derived live file set and the
optimistic commit protocol). -/

/-- The payload of an `AddFile` action: the data recorded per live file. -/
structure FileMeta where
  path : String
  size : Nat
  rowCount : Nat
  deriving DecidableEq, Repr

/-- Modelled from the spec: the tagged action variants
`{AddFile, RemoveFile, UpdateMetadata}`. -/
inductive Action where
  | add (f : FileMeta)
  | removeFile (path : String) (deletionTime : Nat)
  | updateMetadata
  deriving DecidableEq, Repr

/-- Modelled from the spec: a commit is an immutable record of a timestamp and
an ordered action sequence; its version is its index in the log. -/
structure Commit where
  timestamp : Nat
  actions : List Action
  deriving DecidableEq, Repr

/-- Apply one action to the live file set: `AddFile` registers the file,
replacing any previous entry at the same path; `RemoveFile` drops the path;
`UpdateMetadata` leaves the set unchanged. -/
def applyAction (live : List FileMeta) : Action → List FileMeta
  | Action.add f => f :: live.filter (fun g => g.path ≠ f.path)
  | Action.removeFile p _ => live.filter (fun g => g.path ≠ p)
  | Action.updateMetadata => live

/-- Replay an ordered action sequence from the empty live set. -/
def replayActions (acts : List Action) : List FileMeta :=
  acts.foldl applyAction []

/-- The ordered action sequence of a log: the actions of its commits in
version order. -/
def actionsOf (log : List Commit) : List Action :=
  log.foldr (fun c acc => c.actions ++ acc) []

/-- Replay a log commit by commit, in version order. -/
def replay (log : List Commit) : List FileMeta :=
  log.foldl (fun live c => c.actions.foldl applyAction live) []

/-- The live file set at version `v`: replay of commits `0..=v`. -/
def liveAt (log : List Commit) (v : Nat) : List FileMeta :=
  replay (log.take (v + 1))

/-- Modelled from the spec: `read_snapshot(version)` replays actions
`0..=version` (default: latest) and returns the live file set together with
the untouched log. -/
def read_snapshot (log : List Commit) (version : Option Nat) :
    List FileMeta × List Commit :=
  (liveAt log (version.getD (log.length - 1)), log)

/-- Modelled from the spec: the atomic version-slot claim (create-if-absent on
the log entry for `version`).  The slot for `version` is already claimed
exactly when `version < log.length`; the write succeeds only when `version`
is the next free slot. -/
def tryCommit (log : List Commit) (version : Nat) (c : Commit) :
    Option (List Commit) :=
  if log.length = version then some (log ++ [c]) else none

/-- Modelled from the spec: the bounded retry loop of `commit`.  Each round
reloads the log, computes `base_version + 1` as the next slot of the reloaded
view, and attempts the atomic slot claim; `interf` lists the commits that
other writers land between this writer's reload and its claim attempt, one
batch per round.  Returns the claimed version (if any) and the final log. -/
def commitLoop (c : Commit) : Nat → List Commit → List (List Commit) →
    Option Nat × List Commit
  | 0, log, _ => (none, log)
  | fuel + 1, log, interf =>
    let log' := log ++ interf.headD []
    match tryCommit log' log.length c with
    | some newLog => (some log.length, newLog)
    | none => commitLoop c fuel log' interf.tail

/-- The conflict failure surfaced after the retry budget is exhausted. -/
inductive CommitError where
  | concurrentModification
  deriving DecidableEq, Repr

/-- Modelled from the spec: `commit(base_version, actions)` with a bounded
retry count; exhausting retries surfaces `ConcurrentModification`. -/
def commit (log : List Commit) (c : Commit) (retries : Nat)
    (interf : List (List Commit)) : Except CommitError Nat × List Commit :=
  match commitLoop c retries log interf with
  | (some v, l) => (Except.ok v, l)
  | (none, l) => (Except.error CommitError.concurrentModification, l)

/-- Concatenation of the interference batches actually consumed. -/
def flatBatches (ls : List (List Commit)) : List Commit :=
  ls.foldr (fun a b => a ++ b) []

end Fsdb

namespace Fsdb

/-- On failure, the retry loop leaves the log exactly as other writers made
it: the initial log followed by the consumed interference batches, with
nothing of this writer's commit applied. -/
theorem commitLoop_none (c : Commit) :
    ∀ (fuel : Nat) (log : List Commit) (interf : List (List Commit)),
      (commitLoop c fuel log interf).1 = none →
      (commitLoop c fuel log interf).2 = log ++ flatBatches (interf.take fuel) := by
  intro fuel
  induction fuel with
  | zero =>
    intro log interf _
    simp [commitLoop, flatBatches]
  | succ n ih =>
    intro log interf h
    cases interf with
    | nil =>
      exfalso
      simp [commitLoop, tryCommit] at h
    | cons b bs =>
      cases b with
      | nil =>
        exfalso
        simp [commitLoop, tryCommit] at h
      | cons x xs =>
        have hne : ¬ (log ++ x :: xs).length = log.length := by
          simp [List.length_append]
        have hstep : commitLoop c (n + 1) log ((x :: xs) :: bs) =
            commitLoop c n (log ++ x :: xs) bs := by
          simp [commitLoop, tryCommit, hne]
        rw [hstep] at h ⊢
        rw [ih _ _ h]
        simp [flatBatches, List.append_assoc]

/-- On success, the retry loop's final log is some prefix followed by this
writer's commit, claimed at the version equal to the prefix length. -/
theorem commitLoop_some (c : Commit) :
    ∀ (fuel : Nat) (log : List Commit) (interf : List (List Commit)) (v : Nat),
      (commitLoop c fuel log interf).1 = some v →
      ∃ pre, (commitLoop c fuel log interf).2 = pre ++ [c] ∧ v = pre.length := by
  intro fuel
  induction fuel with
  | zero =>
    intro log interf v h
    simp [commitLoop] at h
  | succ n ih =>
    intro log interf v h
    cases interf with
    | nil =>
      simp [commitLoop, tryCommit] at h ⊢
      omega
    | cons b bs =>
      cases b with
      | nil =>
        simp [commitLoop, tryCommit] at h ⊢
        omega
      | cons x xs =>
        have hne : ¬ (log ++ x :: xs).length = log.length := by
          simp [List.length_append]
        have hstep : commitLoop c (n + 1) log ((x :: xs) :: bs) =
            commitLoop c n (log ++ x :: xs) bs := by
          simp [commitLoop, tryCommit, hne]
        rw [hstep] at h ⊢
        exact ih _ _ _ h

/-- C2: commit atomicity.  The atomic slot claim writes a commit at a version
only if that version is still unclaimed (and then the commit lands exactly
there); a successful `commit` places the commit as the last entry, at the
version equal to the number of commits before it; and when the bounded retry
count is exhausted `commit` returns `ConcurrentModification` with the log
holding exactly the prior commits plus other writers' interference — none of
this call's actions applied. -/
theorem commit_atomic (c : Commit) (log : List Commit) (retries : Nat)
    (interf : List (List Commit)) :
    (∀ (l : List Commit) (version : Nat) (l' : List Commit),
       tryCommit l version c = some l' → version = l.length ∧ l' = l ++ [c]) ∧
    (∀ v, (commit log c retries interf).1 = Except.ok v →
       ∃ pre, (commit log c retries interf).2 = pre ++ [c] ∧ v = pre.length) ∧
    ((commit log c retries interf).1 =
        Except.error CommitError.concurrentModification →
      (commit log c retries interf).2 =
        log ++ flatBatches (interf.take retries)) := by
  refine ⟨?_, ?_, ?_⟩
  · intro l version l' h
    unfold tryCommit at h
    split at h
    · cases h
      constructor
      · omega
      · rfl
    · cases h
  · intro v h
    rcases hcl : commitLoop c retries log interf with ⟨o, l⟩
    cases o with
    | none =>
      unfold commit at h
      rw [hcl] at h
      simp at h
    | some w =>
      unfold commit at h ⊢
      rw [hcl] at h ⊢
      simp at h ⊢
      subst h
      have hsome := commitLoop_some c retries log interf w (by rw [hcl])
      rw [hcl] at hsome
      simpa using hsome
  · intro h
    rcases hcl : commitLoop c retries log interf with ⟨o, l⟩
    cases o with
    | some w =>
      unfold commit at h
      rw [hcl] at h
      simp at h
    | none =>
      unfold commit at h ⊢
      rw [hcl] at h ⊢
      simp at h ⊢
      have hnone := commitLoop_none c retries log interf (by rw [hcl])
      rw [hcl] at hnone
      simpa using hnone

/-- Witness for C2: with no retry budget the commit fails and the log is
untouched; the slot-claim fact is applied at the empty log. -/
theorem commit_atomic_witness :
    ((0 : Nat) = ([] : List Commit).length ∧
      ([⟨7, []⟩] : List Commit) = [] ++ [⟨7, []⟩]) ∧
    (commit [] ⟨7, []⟩ 0 []).2 = [] ++ flatBatches (List.take 0 []) :=
  ⟨(commit_atomic ⟨7, []⟩ [] 0 []).1 [] 0 [⟨7, []⟩] rfl,
   (commit_atomic ⟨7, []⟩ [] 0 []).2.2 rfl⟩

/-- Replaying a log commit by commit equals replaying its concatenated
ordered action sequence, from any starting live set. -/
theorem foldl_commits_eq (log : List Commit) :
    ∀ init : List FileMeta,
      log.foldl (fun live c => c.actions.foldl applyAction live) init =
        (actionsOf log).foldl applyAction init := by
  induction log with
  | nil => intro init; rfl
  | cons c cs ih =>
    intro init
    show cs.foldl _ (c.actions.foldl applyAction init) =
      (c.actions ++ actionsOf cs).foldl applyAction init
    rw [List.foldl_append]
    exact ih _

/-- C3: replay determinism.  `read_snapshot` never mutates the log, two
replays of the same commits `0..=v` produce the same live file set, and the
live file set is a function of the ordered action sequence alone. -/
theorem replay_deterministic (log : List Commit) (version : Option Nat) :
    (read_snapshot log version).2 = log ∧
    (∀ log₁ log₂ : List Commit, log₁ = log₂ →
      (read_snapshot log₁ version).1 = (read_snapshot log₂ version).1) ∧
    replay log = replayActions (actionsOf log) := by
  refine ⟨rfl, ?_, ?_⟩
  · intro log₁ log₂ h
    rw [h]
  · exact foldl_commits_eq log []

/-- Witness for C3 at a concrete log. -/
theorem replay_deterministic_witness :
    (read_snapshot [⟨0, [Action.add ⟨"a", 1, 1⟩]⟩] none).1 =
      (read_snapshot [⟨0, [Action.add ⟨"a", 1, 1⟩]⟩] none).1 :=
  (replay_deterministic [⟨0, [Action.add ⟨"a", 1, 1⟩]⟩] none).2.1
    [⟨0, [Action.add ⟨"a", 1, 1⟩]⟩] [⟨0, [Action.add ⟨"a", 1, 1⟩]⟩] rfl

end Fsdb

namespace Fsdb

/-- No two entries of a live file set share a path. -/
def PathsDistinct (live : List FileMeta) : Prop :=
  live.Pairwise (fun a b => a.path ≠ b.path)

/-- Whether an action is a `RemoveFile` for path `p`. -/
def removesPath (a : Action) (p : String) : Bool :=
  match a with
  | Action.removeFile q _ => q = p
  | _ => false

/-- Whether the action sequence contains an `AddFile` for `f`. -/
def addedIn (acts : List Action) (f : FileMeta) : Bool :=
  acts.any (fun a => a = Action.add f)

/-- Whether the action sequence contains a `RemoveFile` for path `p`. -/
def removedIn (acts : List Action) (p : String) : Bool :=
  acts.any (fun a => removesPath a p)

/-- The ordered action sequence of commits `0..=v`. -/
def actionsUpTo (log : List Commit) (v : Nat) : List Action :=
  actionsOf (log.take (v + 1))

/-- Applying one action preserves path distinctness of the live set. -/
theorem pathsDistinct_applyAction (live : List FileMeta) (a : Action)
    (h : PathsDistinct live) : PathsDistinct (applyAction live a) := by
  cases a with
  | add f =>
    refine List.Pairwise.cons ?_ (List.Pairwise.sublist (List.filter_sublist _) h)
    intro g hg
    have hm := List.mem_filter.mp hg
    have : g.path ≠ f.path := by simpa using hm.2
    exact fun hEq => this hEq.symm
  | removeFile p t =>
    exact List.Pairwise.sublist (List.filter_sublist _) h
  | updateMetadata => exact h

/-- Replaying any action sequence from a path-distinct live set keeps the
paths distinct. -/
theorem pathsDistinct_foldl (acts : List Action) :
    ∀ live, PathsDistinct live → PathsDistinct (acts.foldl applyAction live) := by
  induction acts with
  | nil => intro live h; exact h
  | cons a as ih =>
    intro live h
    exact ih _ (pathsDistinct_applyAction live a h)

/-- Every entry of a replayed live set comes from an `AddFile` that no later
action removes: the sequence splits around that `AddFile`, and nothing after
it removes the entry's path. -/
theorem replayActions_lastAdd (acts : List Action) :
    ∀ f ∈ replayActions acts, ∃ l₁ l₂,
      acts = l₁ ++ Action.add f :: l₂ ∧
      ∀ x ∈ l₂, removesPath x f.path = false := by
  induction acts using List.reverseRecOn with
  | nil =>
    intro f hf
    simp [replayActions] at hf
  | append_singleton as a ih =>
    intro f hf
    have hstep : replayActions (as ++ [a]) = applyAction (replayActions as) a := by
      simp [replayActions, List.foldl_append]
    rw [hstep] at hf
    cases a with
    | add g =>
      rcases List.mem_cons.mp hf with hfg | hmem
      · subst hfg
        exact ⟨as, [], rfl, by simp⟩
      · have hm := List.mem_filter.mp hmem
        obtain ⟨l₁, l₂, heq, hcl⟩ := ih f hm.1
        refine ⟨l₁, l₂ ++ [Action.add g], by rw [heq]; simp, ?_⟩
        intro x hx
        rcases List.mem_append.mp hx with h1 | h2
        · exact hcl x h1
        · simp at h2
          subst h2
          rfl
    | removeFile p t =>
      have hm := List.mem_filter.mp hf
      have hne : f.path ≠ p := by simpa using hm.2
      obtain ⟨l₁, l₂, heq, hcl⟩ := ih f hm.1
      refine ⟨l₁, l₂ ++ [Action.removeFile p t], by rw [heq]; simp, ?_⟩
      intro x hx
      rcases List.mem_append.mp hx with h1 | h2
      · exact hcl x h1
      · simp at h2
        subst h2
        simp only [removesPath, decide_eq_false_iff_not]
        exact fun hq => hne hq.symm
    | updateMetadata =>
      obtain ⟨l₁, l₂, heq, hcl⟩ := ih f hf
      refine ⟨l₁, l₂ ++ [Action.updateMetadata], by rw [heq]; simp, ?_⟩
      intro x hx
      rcases List.mem_append.mp hx with h1 | h2
      · exact hcl x h1
      · simp at h2
        subst h2
        rfl

/-- Counterexample to C4 as stated: in a log that adds `"p"`, removes it, and
adds it again, the file is live at version 2 yet a `RemoveFile` for its path
occurs in commit 1 ≤ 2, so a live entry can be removed by a commit ≤ v. -/
theorem snapshot_invariant_counterexample :
    ¬ (∀ f ∈ liveAt
        [⟨0, [Action.add ⟨"p", 1, 1⟩]⟩,
         ⟨1, [Action.removeFile "p" 0]⟩,
         ⟨2, [Action.add ⟨"p", 1, 1⟩]⟩] 2,
        addedIn (actionsUpTo
          [⟨0, [Action.add ⟨"p", 1, 1⟩]⟩,
           ⟨1, [Action.removeFile "p" 0]⟩,
           ⟨2, [Action.add ⟨"p", 1, 1⟩]⟩] 2) f = true ∧
        removedIn (actionsUpTo
          [⟨0, [Action.add ⟨"p", 1, 1⟩]⟩,
           ⟨1, [Action.removeFile "p" 0]⟩,
           ⟨2, [Action.add ⟨"p", 1, 1⟩]⟩] 2) f.path = false) := by
  decide

/-- C4 (amended): at every version no two live entries share a path, and
every live entry was added by an `AddFile` in some commit ≤ v whose most
recent occurrence is not followed, within commits ≤ v, by any `RemoveFile`
for that path. -/
theorem snapshot_invariant (log : List Commit) (v : Nat) :
    PathsDistinct (liveAt log v) ∧
    ∀ f ∈ liveAt log v,
      addedIn (actionsUpTo log v) f = true ∧
      ∃ l₁ l₂, actionsUpTo log v = l₁ ++ Action.add f :: l₂ ∧
        ∀ x ∈ l₂, removesPath x f.path = false := by
  have hlive : liveAt log v = replayActions (actionsUpTo log v) :=
    foldl_commits_eq (log.take (v + 1)) []
  constructor
  · rw [hlive]
    exact pathsDistinct_foldl _ [] List.Pairwise.nil
  · rw [hlive]
    intro f hf
    obtain ⟨l₁, l₂, heq, hcl⟩ := replayActions_lastAdd _ f hf
    refine ⟨?_, l₁, l₂, heq, hcl⟩
    rw [heq]
    simp [addedIn]

/-- Witness for C4 at a concrete log. -/
theorem snapshot_invariant_witness :
    addedIn (actionsUpTo [⟨0, [Action.add ⟨"a", 1, 1⟩]⟩] 0) ⟨"a", 1, 1⟩ = true :=
  ((snapshot_invariant [⟨0, [Action.add ⟨"a", 1, 1⟩]⟩] 0).2
    ⟨"a", 1, 1⟩ (by decide)).1

end Fsdb

namespace Fsdb

/-! ## Vacuum

Modelled from the spec: `vacuum_table` (re-exported in
`src/fsdb/src/delta_lake/mod.rs` line 11; body absent from `src/`) scans
`RemoveFile` tombstones older than the retention threshold, re-checks by
replay that the file is not live in any retained version, and only then
deletes; a file failing the re-check is skipped. -/

/-- The deletion time of the latest `RemoveFile` tombstone for `p`, if any. -/
def lastRemovalTime (acts : List Action) (p : String) : Option Nat :=
  acts.foldl
    (fun cur a =>
      match a with
      | Action.removeFile q t => if q = p then some t else cur
      | _ => cur)
    none

/-- The paths having at least one `RemoveFile` tombstone, without repeats. -/
def removedPaths (acts : List Action) : List String :=
  (acts.foldr
    (fun a acc =>
      match a with
      | Action.removeFile q _ => q :: acc
      | _ => acc)
    []).dedup

/-- Modelled from the spec: the versions whose snapshots are retained for
time travel at time `now` — those whose commit timestamp is within the
retention window, plus the latest version. -/
def retainedVersions (log : List Commit) (now retention : Nat) : List Nat :=
  (List.range log.length).filter
    (fun v => now ≤ (log.getD v ⟨0, []⟩).timestamp + retention ∨ v = log.length - 1)

/-- Modelled from the spec: `vacuum_table(retention_threshold)` returns the
paths it physically deletes: those with a tombstone aged past the threshold
that the liveness re-check confirms are not live in any retained version. -/
def vacuum_table (log : List Commit) (now retention : Nat) : List String :=
  (removedPaths (actionsOf log)).filter
    (fun p =>
      match lastRemovalTime (actionsOf log) p with
      | some t =>
        decide (t + retention ≤ now) &&
        (retainedVersions log now retention).all
          (fun v => (liveAt log v).all (fun f => f.path ≠ p))
      | none => false)

/-- C5: vacuum safety.  A path is deleted only when its tombstone has aged
past the retention threshold (never at `now < removal_time + retention`) and
the liveness re-check confirms it is live in no retained version; a file
failing either check is skipped, not deleted. -/
theorem vacuum_table_safe (log : List Commit) (now retention : Nat)
    (p : String) (hp : p ∈ vacuum_table log now retention) :
    ∃ t, lastRemovalTime (actionsOf log) p = some t ∧
      t + retention ≤ now ∧
      ∀ v ∈ retainedVersions log now retention,
        ∀ f ∈ liveAt log v, f.path ≠ p := by
  have hm := List.mem_filter.mp hp
  cases ht : lastRemovalTime (actionsOf log) p with
  | none =>
    rw [ht] at hm
    simp at hm
  | some t =>
    rw [ht] at hm
    have hcond := hm.2
    simp only [Bool.and_eq_true, decide_eq_true_eq, List.all_eq_true] at hcond
    refine ⟨t, rfl, hcond.1, ?_⟩
    intro v hv f hf
    have := hcond.2 v hv
    simp only [List.all_eq_true] at this
    have hfp := this f hf
    simpa using hfp

/-- Witness for C5: a file removed at time 5 is vacuumed at time 100 with
retention 10, and the theorem yields its aged tombstone and the empty
liveness re-check. -/
theorem vacuum_table_safe_witness :
    ∃ t, lastRemovalTime (actionsOf
        [⟨0, [Action.add ⟨"p", 1, 1⟩]⟩, ⟨5, [Action.removeFile "p" 5]⟩]) "p" =
        some t ∧
      t + 10 ≤ 100 ∧
      ∀ v ∈ retainedVersions
          [⟨0, [Action.add ⟨"p", 1, 1⟩]⟩, ⟨5, [Action.removeFile "p" 5]⟩] 100 10,
        ∀ f ∈ liveAt
          [⟨0, [Action.add ⟨"p", 1, 1⟩]⟩, ⟨5, [Action.removeFile "p" 5]⟩] v,
          f.path ≠ "p" :=
  vacuum_table_safe
    [⟨0, [Action.add ⟨"p", 1, 1⟩]⟩, ⟨5, [Action.removeFile "p" 5]⟩] 100 10 "p"
    (by decide)

end Fsdb

namespace Fsdb

/-! ## Optimize

Modelled from the spec: `optimize_table(target_file_size)` (re-exported in
`src/fsdb/src/delta_lake/mod.rs` line 11; body absent from `src/`) selects
the live files below the target size, groups them by greedy bin-packing on
size, rewrites each group into a compacted file, and commits
`{RemoveFile(old group members), AddFile(new compacted files)}`. -/

/-- Metrics reported by optimize: files added and files removed. -/
structure OptimizeMetrics where
  filesAdded : Nat
  filesRemoved : Nat
  deriving DecidableEq, Repr

/-- Greedy bin-packing of files by size against the target file size. -/
def binPack (target : Nat) (files : List FileMeta) : List (List FileMeta) :=
  files.foldl
    (fun bins f =>
      match bins with
      | [] => [[f]]
      | b :: rest =>
        if (b.map FileMeta.size).sum + f.size ≤ target then (f :: b) :: rest
        else [f] :: b :: rest)
    []

/-- The compacted file written for one bin. -/
def mergedFile (g : List FileMeta) : FileMeta :=
  ⟨(g.map FileMeta.path).foldr (fun a b => a ++ b) "" ++ ".compacted",
   (g.map FileMeta.size).sum,
   (g.map FileMeta.rowCount).sum⟩

/-- Modelled from the spec: `optimize_table(target_file_size)` returns the
actions of its commit and its metrics. -/
def optimize_table (live : List FileMeta) (target : Nat) :
    List Action × OptimizeMetrics :=
  let small := live.filter (fun f => f.size < target)
  let newFiles := (binPack target small).map mergedFile
  (small.map (fun f => Action.removeFile f.path 0) ++ newFiles.map Action.add,
   ⟨newFiles.length, small.length⟩)

/-- The live file set after running optimize on `live`. -/
def applyOptimize (live : List FileMeta) (target : Nat) : List FileMeta :=
  (optimize_table live target).1.foldl applyAction live

/-- C7: optimize idempotence.  When every live file is at or above the target
size, `optimize_table` produces no actions and empty metrics, the live set is
unchanged, and running it twice equals running it once. -/
theorem optimize_table_idempotent (live : List FileMeta) (target : Nat)
    (h : ∀ f ∈ live, target ≤ f.size) :
    optimize_table live target = ([], ⟨0, 0⟩) ∧
    applyOptimize live target = live ∧
    applyOptimize (applyOptimize live target) target =
      applyOptimize live target := by
  have hsmall : live.filter (fun f => f.size < target) = [] := by
    rw [List.filter_eq_nil_iff]
    intro f hf
    simpa using Nat.not_lt.mpr (h f hf)
  have h1 : optimize_table live target = ([], ⟨0, 0⟩) := by
    simp [optimize_table, hsmall, binPack]
  have h2 : applyOptimize live target = live := by
    rw [applyOptimize, h1]
    rfl
  exact ⟨h1, h2, by rw [h2]; exact h2⟩

/-- Witness for C7 at a concrete compacted table. -/
theorem optimize_table_idempotent_witness :
    optimize_table [⟨"a", 10, 1⟩, ⟨"b", 12, 1⟩] 10 = ([], ⟨0, 0⟩) :=
  (optimize_table_idempotent [⟨"a", 10, 1⟩, ⟨"b", 12, 1⟩] 10 (by decide)).1

end Fsdb

namespace Fsdb

/-! ## Merge engine

Modelled from the spec: `MergeBuilder::execute()` (re-exported in
`src/fsdb/src/delta_lake/mod.rs` line 13; body absent from `src/`) with an
unconditional update-matched clause and an insert-not-matched clause, joining
target and source rows on an integer key.  Data skipping against the join
condition excludes target files whose key statistics admit no source key;
candidate files are rewritten only if their content changed; not-matched
source rows go to a new insert file; the commit lists
`RemoveFile(changed candidates)` and `AddFile(rewritten + insert files)`. -/

/-- A target data file: its path, its rows `(key, value)`, and the key
statistics recorded for it at write time. -/
structure TargetFile where
  path : String
  rows : List (Int × String)
  keyMin : Int
  keyMax : Int
  deriving DecidableEq, Repr

/-- Data skipping on the join condition: a target file is a merge candidate
when some source key falls within its key statistics range. -/
def fileCandidate (src : List (Int × String)) (f : TargetFile) : Bool :=
  src.any (fun s => f.keyMin ≤ s.1 ∧ s.1 ≤ f.keyMax)

/-- The first source row with the given key, if any. -/
def srcLookup (src : List (Int × String)) (k : Int) : Option String :=
  (List.find? (fun s => s.1 = k) src).map (fun s => s.2)

/-- Apply the update-matched clause to the rows of one file: a row matched by
a source row takes the source value; a row matched by no source row is kept
as it is. -/
def rewriteRows (src : List (Int × String)) (rows : List (Int × String)) :
    List (Int × String) :=
  rows.map
    (fun r =>
      match srcLookup src r.1 with
      | some v => (r.1, v)
      | none => r)

/-- The rewritten replacement of a candidate file whose content changed. -/
def rewrittenFile (src : List (Int × String)) (f : TargetFile) : TargetFile :=
  ⟨f.path ++ ".rewritten", rewriteRows src f.rows, f.keyMin, f.keyMax⟩

/-- Whether some target file has a row with the given key. -/
def targetHasKey (target : List TargetFile) (k : Int) : Bool :=
  target.any (fun f => f.rows.any (fun r => r.1 = k))

/-- The source rows matched by no target row (to be inserted). -/
def notMatchedRows (target : List TargetFile) (src : List (Int × String)) :
    List (Int × String) :=
  src.filter (fun s => targetHasKey target s.1 = false)

/-- Smallest key of a nonempty row list (exact statistics of a new file). -/
def keysMin (rows : List (Int × String)) : Int :=
  match rows with
  | [] => 0
  | r :: rs => (rs.map Prod.fst).foldl min r.1

/-- Largest key of a nonempty row list (exact statistics of a new file). -/
def keysMax (rows : List (Int × String)) : Int :=
  match rows with
  | [] => 0
  | r :: rs => (rs.map Prod.fst).foldl max r.1

/-- The candidate files whose content actually changes: only these are
rewritten, removed and replaced. -/
def changedFiles (target : List TargetFile) (src : List (Int × String)) :
    List TargetFile :=
  target.filter
    (fun f => fileCandidate src f && decide (rewriteRows src f.rows ≠ f.rows))

/-- The new files holding the not-matched source rows, batched into one
insert file when nonempty. -/
def insertFiles (target : List TargetFile) (src : List (Int × String))
    (insertPath : String) : List TargetFile :=
  match notMatchedRows target src with
  | [] => []
  | r :: rs => [⟨insertPath, r :: rs, keysMin (r :: rs), keysMax (r :: rs)⟩]

/-- Result of a merge: the resulting target files, the paths listed in
`RemoveFile` actions, and the files listed in `AddFile` actions. -/
structure MergeResult where
  files : List TargetFile
  removePaths : List String
  addFiles : List TargetFile
  deriving DecidableEq, Repr

/-- Modelled from the spec: `MergeBuilder::execute()` for an
update-matched/insert-not-matched merge joined on the integer key. -/
def mergeExecute (target : List TargetFile) (src : List (Int × String))
    (insertPath : String) : MergeResult :=
  let changed := changedFiles target src
  let kept := target.filter
    (fun f => !(fileCandidate src f && decide (rewriteRows src f.rows ≠ f.rows)))
  let rewrites := changed.map (rewrittenFile src)
  let inserts := insertFiles target src insertPath
  ⟨kept ++ rewrites ++ inserts, changed.map TargetFile.path, rewrites ++ inserts⟩

end Fsdb

namespace Fsdb

/-- The files of a merge result: kept files, then rewrites, then inserts. -/
theorem mergeExecute_files (target : List TargetFile) (src : List (Int × String))
    (insertPath : String) :
    (mergeExecute target src insertPath).files =
      target.filter
        (fun f => !(fileCandidate src f && decide (rewriteRows src f.rows ≠ f.rows)))
        ++ (changedFiles target src).map (rewrittenFile src)
        ++ insertFiles target src insertPath := rfl

/-- The paths a merge removes are exactly those of the changed candidates. -/
theorem mergeExecute_removePaths (target : List TargetFile)
    (src : List (Int × String)) (insertPath : String) :
    (mergeExecute target src insertPath).removePaths =
      (changedFiles target src).map TargetFile.path := rfl

/-- A file outside the candidate set is never a changed candidate. -/
theorem notCandidate_not_changed (target : List TargetFile)
    (src : List (Int × String)) (f : TargetFile)
    (hc : fileCandidate src f = false) : f ∉ changedFiles target src := by
  intro hmem
  have h2 := (List.mem_filter.mp hmem).2
  simp [hc] at h2

/-- C6: the merge frame property.  A target file that data skipping excludes
is kept unchanged, is not a changed candidate, and (when target paths are
distinct) its path is not listed among the `RemoveFile` actions; when its key
statistics bound its rows, exclusion indeed means no row of it matches any
source row; a target row matched by no source row keeps its value in the
rewritten file; a candidate file whose content did not change is kept and not
rewritten; and the spec example merge of `{1:"a", 2:"b"}` with `{1:"A", 3:"C"}`
yields `{1:"A", 2:"b", 3:"C"}`, the file of row 2 untouched. -/
theorem mergeBuilder_frame (target : List TargetFile) (src : List (Int × String))
    (insertPath : String) (f : TargetFile) (hf : f ∈ target) :
    (fileCandidate src f = false →
      f ∉ changedFiles target src ∧
      f ∈ (mergeExecute target src insertPath).files ∧
      ((target.map TargetFile.path).Nodup →
        f.path ∉ (mergeExecute target src insertPath).removePaths)) ∧
    ((∀ r ∈ f.rows, f.keyMin ≤ r.1 ∧ r.1 ≤ f.keyMax) →
      fileCandidate src f = false →
      ∀ r ∈ f.rows, srcLookup src r.1 = none) ∧
    (∀ r ∈ f.rows, srcLookup src r.1 = none → r ∈ (rewrittenFile src f).rows) ∧
    (rewriteRows src f.rows = f.rows →
      f ∉ changedFiles target src ∧
      f ∈ (mergeExecute target src insertPath).files) ∧
    (mergeExecute
        [⟨"t0", [(1, "a")], 1, 1⟩, ⟨"t1", [(2, "b")], 2, 2⟩]
        [(1, "A"), (3, "C")] "ins").files =
      [⟨"t1", [(2, "b")], 2, 2⟩, ⟨"t0.rewritten", [(1, "A")], 1, 1⟩,
       ⟨"ins", [(3, "C")], 3, 3⟩] := by
  refine ⟨?_, ?_, ?_, ?_, by rfl⟩
  · intro hc
    refine ⟨notCandidate_not_changed target src f hc, ?_, ?_⟩
    · rw [mergeExecute_files]
      refine List.mem_append.mpr (Or.inl (List.mem_append.mpr (Or.inl ?_)))
      exact List.mem_filter.mpr ⟨hf, by simp [hc]⟩
    · intro hnd hmem
      rw [mergeExecute_removePaths] at hmem
      obtain ⟨g, hg, hgp⟩ := List.mem_map.mp hmem
      have hgt : g ∈ target := (List.mem_filter.mp hg).1
      have : g = f := List.inj_on_of_nodup_map hnd hgt hf hgp
      subst this
      exact notCandidate_not_changed target src g hc hg
  · intro hb hc r hr
    have hno : ¬ ∃ s ∈ src, f.keyMin ≤ s.1 ∧ s.1 ≤ f.keyMax := by
      rintro ⟨s, hs, hb1, hb2⟩
      have hcand : fileCandidate src f = true := by
        simp only [fileCandidate, List.any_eq_true, decide_eq_true_eq]
        exact ⟨s, hs, hb1, hb2⟩
      rw [hc] at hcand
      cases hcand
    have hfind : List.find? (fun s => s.1 = r.1) src = none := by
      rw [List.find?_eq_none]
      intro s hs
      simp only [decide_eq_true_eq]
      intro heq
      exact hno ⟨s, hs, heq ▸ (hb r hr).1, heq ▸ (hb r hr).2⟩
    simp [srcLookup, hfind]
  · intro r hr hlook
    have hid : (match srcLookup src r.1 with
        | some v => (r.1, v)
        | none => r) = r := by rw [hlook]
    exact List.mem_map.mpr ⟨r, hr, hid⟩
  · intro hchg
    constructor
    · intro hmem
      have h2 := (List.mem_filter.mp hmem).2
      simp [hchg] at h2
    · rw [mergeExecute_files]
      refine List.mem_append.mpr (Or.inl (List.mem_append.mpr (Or.inl ?_)))
      exact List.mem_filter.mpr ⟨hf, by simp [hchg]⟩

/-- Witness for C6: a one-row file whose key range excludes every source key
survives the merge unchanged. -/
theorem mergeBuilder_frame_witness :
    (⟨"t1", [(2, "b")], 2, 2⟩ : TargetFile) ∈
      (mergeExecute [⟨"t1", [(2, "b")], 2, 2⟩] [(1, "A")] "ins").files :=
  ((mergeBuilder_frame [⟨"t1", [(2, "b")], 2, 2⟩] [(1, "A")] "ins"
      ⟨"t1", [(2, "b")], 2, 2⟩ (by decide)).1 (by decide)).2.1

end Fsdb
